import Mathlib

/-!
Verification of the DeepSpeed checkpoint transcoder
`deepspeed/checkpoint/ds_to_universal.py` against its natural-language
specification.

The development shallowly embeds the data model and operations of the
script.  Tensors are modelled as a shape together with row-major flat
data over `ℚ` (the script performs no floating-point transformation
beyond concatenation / averaging / equality checks, so exact rationals
capture the data flow).  Regex patterns are modelled as boolean
predicates on names (`re.match(pattern, name)` becomes application);
the classification logic is about which pattern *list* fires, never
about regex internals.  Fallible tensor operations (`torch.narrow`
out-of-range, `torch.cat` shape mismatch, `shape[1]` of a 1-D tensor,
the replication `assert`) are modelled with `Option` / `Except`.
File-system effects are modelled as explicit lists of write events
carrying the exact path strings the script builds.
-/

/-- Decimal digit character, `digitChar d` is the character for digit `d`
(valid for `d < 10`); mirrors how Python renders nonnegative integers. -/
def digitChar (d : Nat) : Char := Char.ofNat (48 + d)

/-- Fuel-driven most-significant-first decimal digits of a natural number.
Structural recursion on the fuel keeps the definition kernel-evaluable. -/
def natDigitsAux : Nat → Nat → List Char
  | 0, _ => []
  | fuel + 1, n =>
      if n < 10 then [digitChar n]
      else natDigitsAux fuel (n / 10) ++ [digitChar (n % 10)]

/-- Decimal digits of `n`, most significant first: the model of Python
`str(n)` / `f"{n:d}"` for a nonnegative `n`. -/
def natDigits (n : Nat) : List Char := natDigitsAux (n + 1) n

/-- Model of Python `str(n)` for a natural number. -/
def natStr (n : Nat) : String := String.mk (natDigits n)

/-- Model of the Python format `f"{n:0>2d}"` (`ds_to_universal.py:130`):
the decimal representation right-aligned in a field of width 2, filled
with `'0'`. -/
def pad2 (n : Nat) : String :=
  if (natDigits n).length < 2 then
    String.mk (List.replicate (2 - (natDigits n).length) '0' ++ natDigits n)
  else natStr n

/-- A tensor: a shape and row-major flat data.  The script only narrows,
concatenates, reshapes, averages and compares tensors, so exact `ℚ`
entries model the values faithfully. -/
structure Tensor where
  shape : List Nat
  data : List ℚ
deriving DecidableEq, Repr

/-- Well-formedness: the flat data has exactly as many entries as the
shape prescribes. -/
def Tensor.WF (t : Tensor) : Prop := t.data.length = t.shape.prod

/-- Model of `state_flat_tensor.narrow(0, offset, numel)` on a 1-D flat
tensor (`ds_to_universal.py:136`): the contiguous slice
`[offset, offset+numel)`.  (torch raises for an out-of-range window; the
claims only concern in-range windows, where this is the exact slice.) -/
def Tensor.narrow0 (t : Tensor) (offset numel : Nat) : Tensor :=
  ⟨[numel], (t.data.drop offset).take numel⟩

/-- Model of elementwise `a + b` on tensors of equal shape;
`none` models the shape-mismatch failure. -/
def tensorAdd (a b : Tensor) : Option Tensor :=
  if a.shape = b.shape then some ⟨a.shape, List.zipWith (· + ·) a.data b.data⟩
  else none

/-- Model of Python `sum(slices)` for a nonempty list `s :: rest` of
tensors (`ds_to_universal.py:183`): the integer `0` start value is
absorbed by the first tensor, then elementwise additions fold in. -/
def pySum (s : Tensor) (rest : List Tensor) : Option Tensor :=
  rest.foldlM tensorAdd s

/-- Model of `t / n` for a tensor and the Python `len` count
(`ds_to_universal.py:183`). -/
def tensorDivNat (t : Tensor) (n : Nat) : Tensor :=
  ⟨t.shape, t.data.map (· / (n : ℚ))⟩

/-- Model of `torch.zeros(k)` (`ds_to_universal.py:157`). -/
def zerosT (k : Nat) : Tensor := ⟨[k], List.replicate k 0⟩

/-- Model of `t[-1]` for a tensor (`ds_to_universal.py:155`): the last
index along dimension 0; `none` models the index error on an empty
dimension or a 0-d tensor. -/
def tensorLastIndex0 (t : Tensor) : Option Tensor :=
  match t.shape with
  | [] => none
  | d0 :: rest =>
      if d0 = 0 then none
      else some ⟨rest, (t.data.drop ((d0 - 1) * rest.prod)).take rest.prod⟩

/-- Model of `torch.cat(ts, dim=d)` (`ds_to_universal.py:188`): all
tensors must agree on every dimension except `d`, which must exist; the
result interleaves the row-major blocks.  `none` models the torch
error. -/
def torchCat (d : Nat) (ts : List Tensor) : Option Tensor :=
  match ts with
  | [] => none
  | t0 :: _ =>
      if (ts.all fun t => decide (d < t.shape.length) &&
            decide (t.shape.take d = t0.shape.take d) &&
            decide (t.shape.drop (d + 1) = t0.shape.drop (d + 1))) then
        let outer := (t0.shape.take d).prod
        let newShape := t0.shape.take d ++
          ((ts.map fun t => t.shape.getD d 0).sum :: t0.shape.drop (d + 1))
        some ⟨newShape,
          (List.range outer).flatMap fun i =>
            ts.flatMap fun t =>
              let bs := (t.shape.drop d).prod
              (t.data.drop (i * bs)).take bs⟩
      else none

/-- A compiled regex pattern, abstracted to its anchored match test
`fun name => re.match(pattern, name) is not None`. -/
def Pattern : Type := String → Bool

/-- Model of `any(re.match(pattern, name) for pattern in patterns)`
(`ds_to_universal.py:109,177,182,186,191`). -/
def matchesAny (patterns : List Pattern) (name : String) : Bool :=
  patterns.any fun p => p name

/-- One entry of a `param_slice_mappings` group: the fragment's `start`
offset and element count `numel` inside the flat tensors of the group. -/
structure FragmentMapping where
  start : Nat
  numel : Nat
deriving DecidableEq, Repr

/-- Per-group optimizer state of one `(pp, tp, dp)` rank file: the flat
moment tensors `state_groups[g]["exp_avg"]`, `state_groups[g]["exp_avg_sq"]`,
`fp32_groups[g]` and the group's slice mapping
`param_slice_mappings[g]`.  The Python pickle stores these as three
parallel containers indexed by the same group id `g`
(`ds_to_universal.py:95-108`); the embedding zips them into one record
per group. -/
structure GroupState where
  exp_avg : Tensor
  exp_avg_sq : Tensor
  fp32 : Tensor
  slice_mapping : List (String × FragmentMapping)
deriving DecidableEq, Repr

/-- Model of `flat_state = dict(exp_avg=..., exp_avg_sq=..., fp32=...)`
(`ds_to_universal.py:102-106`), in Python dict insertion order. -/
def flatState (g : GroupState) : List (String × Tensor) :=
  [("exp_avg", g.exp_avg), ("exp_avg_sq", g.exp_avg_sq), ("fp32", g.fp32)]

/-- The fragment file path built by `dump_param_fragment`
(`ds_to_universal.py:126-132`):
`os.path.join(dir, param_name, str(tp_index))` joined with
`f"{state_name}.{dp_index:0>2d}"`. -/
def fragPath (dir param_name : String) (tp : Nat) (state_name : String) (dp : Nat) :
    String :=
  dir ++ "/" ++ param_name ++ "/" ++ natStr tp ++ "/" ++ state_name ++ "." ++ pad2 dp

/-- Model of `dump_param_fragment` (`ds_to_universal.py:122-137`): the
single file write it performs, as a `(path, contents)` pair.  The
contents are `state_flat_tensor.narrow(0, offset, numel).clone()`. -/
def dump_param_fragment (dir : String) (tp dp : Nat) (state_name : String)
    (state_flat_tensor : Tensor) (param_name : String) (offset numel : Nat) :
    String × Tensor :=
  (fragPath dir param_name tp state_name dp, state_flat_tensor.narrow0 offset numel)

/-- The writes contributed by one `(name, fragment_mapping)` entry of a
group's slice mapping inside `extract_zero_shards`
(`ds_to_universal.py:108-116`): skip entirely when `pp_index > 0` and the
name matches a `pipeline_replicated` pattern, otherwise dump one fragment
per moment of `flat_state`. -/
def extractEntryWrites (dir : String) (pipeline_replicated_params : List Pattern)
    (pp tp dp : Nat) (g : GroupState) (entry : String × FragmentMapping) :
    List (String × Tensor) :=
  if pp > 0 && matchesAny pipeline_replicated_params entry.1 then []
  else (flatState g).map fun st =>
    dump_param_fragment dir tp dp st.1 st.2 entry.1 entry.2.start entry.2.numel

/-- The writes contributed by one parameter group inside
`extract_zero_shards` (`ds_to_universal.py:100-116`). -/
def extractGroupWrites (dir : String) (pipeline_replicated_params : List Pattern)
    (pp tp dp : Nat) (g : GroupState) : List (String × Tensor) :=
  g.slice_mapping.flatMap (extractEntryWrites dir pipeline_replicated_params pp tp dp g)

/-- Model of `extract_zero_shards(dir, ds_checkpoint, (pp, tp, dp))`
(`ds_to_universal.py:82-116`): the ordered list of `(path, contents)`
fragment file writes the work item performs.  `groups` is the per-group
optimizer state of the `(pp, tp, dp)` rank file. -/
def extract_zero_shards (dir : String) (pipeline_replicated_params : List Pattern)
    (groups : List GroupState) (pp tp dp : Nat) : List (String × Tensor) :=
  groups.flatMap (extractGroupWrites dir pipeline_replicated_params pp tp dp)

/-- The `universal_checkpoint_info` descriptor
(`ds_to_universal.py:90-91,165-169`): the five pattern lists and
`original_vocab_size`. -/
structure UniversalCheckpointInfo where
  pipeline_replicated_parameter_patterns : List Pattern
  tp_replicated_parameter_patterns : List Pattern
  parameter_to_average_patterns : List Pattern
  parameter_with_row_parallelism_patterns : List Pattern
  vocabulary_parameter_patterns : List Pattern
  original_vocab_size : Nat

/-- The failure kinds a merge task can raise
(spec §7; `assert` at `ds_to_universal.py:179`, torch shape errors, and
Python index errors). -/
inductive MergeError where
  | replicationViolation
  | shapeMismatch
  | indexError
deriving DecidableEq, Repr

/-- The `ckpt_dict` record persisted per moment by `merge_tp_slices`
(`ds_to_universal.py:176-201`): the merged `param` plus the optional
`cat_dim` and `vocab_divisibility_padding_tensor` keys. -/
structure MergeResult where
  param : Tensor
  cat_dim : Option Nat
  vocab_divisibility_padding_tensor : Option Tensor
deriving DecidableEq, Repr

/-- Step B of `merge_tp_slices` (`ds_to_universal.py:176-189`): combine
the per-TP slices by first-match classification.  Returns the merged
tensor together with the `cat_dim` entry of `ckpt_dict` (which is set
only in the concatenation branch). -/
def mergeCombineSlices (info : UniversalCheckpointInfo) (name : String)
    (slices : List Tensor) : Except MergeError (Tensor × Option Nat) :=
  match slices with
  | [] => .error .indexError
  | s :: rest =>
      if matchesAny info.tp_replicated_parameter_patterns name then
        if 1 < (s :: rest).length then
          if rest.all fun other => s = other then .ok (s, none)
          else .error .replicationViolation
        else .ok (s, none)
      else if matchesAny info.parameter_to_average_patterns name then
        match pySum s rest with
        | some tot => .ok (tensorDivNat tot (s :: rest).length, none)
        | none => .error .shapeMismatch
      else
        let cat_dim : Nat :=
          if matchesAny info.parameter_with_row_parallelism_patterns name then 1 else 0
        match torchCat cat_dim (s :: rest) with
        | some c => .ok (c, some cat_dim)
        | none => .error .shapeMismatch

/-- Model of `_get_vocab_divisibility_padding_tensor`
(`ds_to_universal.py:152-157`): the last row of the padded vocab tensor
when its first dimension exceeds `original_vocab_size`, else a zero
tensor of length `shape[1]`.  `none` models the Python index errors
(`shape[0]` of a 0-d tensor, `shape[1]` of a 1-D tensor, `t[-1]` of an
empty tensor). -/
def _get_vocab_divisibility_padding_tensor (original_vocab_size : Nat)
    (padded_vocab_tensor : Tensor) : Option Tensor :=
  match padded_vocab_tensor.shape with
  | [] => none
  | d0 :: rest =>
      if d0 > original_vocab_size then tensorLastIndex0 padded_vocab_tensor
      else
        match rest with
        | [] => none
        | d1 :: _ => some (zerosT d1)

/-- The per-moment body of `merge_tp_slices` after the slices are loaded
(`ds_to_universal.py:176-201`): Step B combination, then the vocabulary
padding annotation (Step C), producing the `ckpt_dict` record that is
persisted. -/
def merge_tp_slices_state (info : UniversalCheckpointInfo) (name : String)
    (slices : List Tensor) : Except MergeError MergeResult := do
  let pr ← mergeCombineSlices info name slices
  if matchesAny info.vocabulary_parameter_patterns name then
    match _get_vocab_divisibility_padding_tensor info.original_vocab_size pr.1 with
    | some v => .ok ⟨pr.1, pr.2, some v⟩
    | none => .error .indexError
  else .ok ⟨pr.1, pr.2, none⟩

/-- Modelled from the spec: the key constant `BASE_OPTIMIZER_STATE`
imported from `deepspeed.checkpoint` (its defining module is not part of
the sources); the spec names the removed key `base_optimizer_state`. -/
def BASE_OPTIMIZER_STATE : String := "base_optimizer_state"

/-- Modelled from the spec: the key constant `PARAM_SLICE_MAPPINGS`
imported from `deepspeed.checkpoint`; the spec names the removed key
`param_slice_mappings`. -/
def PARAM_SLICE_MAPPINGS : String := "param_slice_mappings"

/-- Modelled from the spec: the key constant
`SINGLE_PARTITION_OF_FP32_GROUPS` imported from `deepspeed.checkpoint`;
the spec names the removed key `single_partition_of_fp32_groups`. -/
def SINGLE_PARTITION_OF_FP32_GROUPS : String := "single_partition_of_fp32_groups"

/-- The `sharded_states` list of `_save_optimizer_state`
(`ds_to_universal.py:239`). -/
def sharded_states : List String :=
  [BASE_OPTIMIZER_STATE, PARAM_SLICE_MAPPINGS, SINGLE_PARTITION_OF_FP32_GROUPS]

/-- Model of the dict comprehension of `_save_optimizer_state`
(`ds_to_universal.py:243`): the record written to
`out/zero/optimizer_state.pt` is the `(0,0,0)` optimizer state dict with
the `sharded_states` keys removed.  Dicts are embedded as ordered
key-value association lists with values of an arbitrary type. -/
def save_optimizer_state_output {α : Type} (optim_sd : List (String × α)) :
    List (String × α) :=
  optim_sd.filter fun kv => !(sharded_states.contains kv.1)

/-- Model of `os.path.join(a, b)` for a relative second component. -/
def osPathJoin (a b : String) : String := a ++ "/" ++ b

/-- Model of the tail component of `os.path.split(p)` (the basename:
everything after the last `'/'`). -/
def osBasename (p : String) : String :=
  String.mk ((p.data.reverse.takeWhile fun c => c ≠ '/').reverse)

/-- Model of the head component of `os.path.split(p)` (everything before
the last `'/'`). -/
def osDirname (p : String) : String :=
  String.mk (((p.data.reverse.dropWhile fun c => c ≠ '/').drop 1).reverse)

/-- A file-system effect of the run, in program order. -/
inductive Event where
  | writeFragment (path : String)
  | writeParam (path : String)
  | writeOptimizerState (path : String)
  | removeTree (path : String)
  | copyFile (src : String) (dstFolder : String)
  | writeText (path : String) (content : String)
deriving DecidableEq, Repr

/-- Whether an event is the write of the `latest_universal` pointer. -/
def Event.isLatestWrite : Event → Bool
  | .writeText _ _ => true
  | _ => false

/-- Model of `shutil.rmtree(path, ignore_errors=...)`
(`ds_to_universal.py:287`): `fsFails` says whether the underlying
removal raises; with `ignore_errors` set the exception is swallowed and
the run continues (possibly leaving the tree partially in place). -/
def shutilRmtree (path : String) (ignore_errors : Bool) (fsFails : Bool) :
    Except String (List Event) :=
  if fsFails && !ignore_errors then .error "rmtree failed"
  else .ok [Event.removeTree path]

/-- The command-line arguments of the script that the claims depend on. -/
structure Args where
  input_folder : String
  output_folder : String
  keep_temp_folder : Bool

/-- Model of the effect trace of `main` (`ds_to_universal.py:254-299`)
after the two parallel phases are sequenced (phase k+1 starts only after
phase k completes): fragment extraction writes, merged slice writes,
the common optimizer state write, the conditional temp-tree removal
(with `ignore_errors=True` literally in the source), the `mp*` copies,
and finally the `latest_universal` pointer carrying the output step
folder's basename.  `rmtreeFails` models a file-system failure while
removing `tmp/`. -/
def mainRun (args : Args) (extractPaths mergePaths mpFiles : List String)
    (rmtreeFails : Bool) : Except String (List Event) := do
  let temp_dir := osPathJoin args.output_folder "tmp"
  let zero_output_folder := osPathJoin args.output_folder "zero"
  let ev1 := extractPaths.map Event.writeFragment
  let ev2 := mergePaths.map Event.writeParam
  let ev3 := [Event.writeOptimizerState (osPathJoin zero_output_folder "optimizer_state.pt")]
  let ev4 ← if args.keep_temp_folder then pure [] else shutilRmtree temp_dir true rmtreeFails
  let ev5 := mpFiles.map fun f => Event.copyFile f args.output_folder
  let ev6 := [Event.writeText (osPathJoin (osDirname args.output_folder) "latest_universal")
                (osBasename args.output_folder)]
  pure (ev1 ++ ev2 ++ ev3 ++ ev4 ++ ev5 ++ ev6)

/-- The three moment names iterated by the extractor and the merger. -/
def momentNames : List String := ["exp_avg", "exp_avg_sq", "fp32"]

/-- The fuel argument of `natDigitsAux` is irrelevant once it exceeds the
number being rendered. -/
theorem natDigitsAux_fuel : ∀ n f f' : Nat, n < f → n < f' →
    natDigitsAux f n = natDigitsAux f' n := by
  intro n
  induction n using Nat.strong_induction_on with
  | _ n ih =>
    intro f f' hf hf'
    cases f with
    | zero => omega
    | succ f0 =>
      cases f' with
      | zero => omega
      | succ f1 =>
        simp only [natDigitsAux]
        by_cases h10 : n < 10
        · simp [h10]
        · simp only [if_neg h10]
          have hdiv : n / 10 < n := Nat.div_lt_self (by omega) (by omega)
          rw [ih (n / 10) hdiv f0 f1 (by omega) (by omega)]

/-- Unfolding equation for `natDigits`: the usual most-significant-first
decimal recursion. -/
theorem natDigits_unfold (n : Nat) :
    natDigits n =
      if n < 10 then [digitChar n]
      else natDigits (n / 10) ++ [digitChar (n % 10)] := by
  by_cases h10 : n < 10
  · simp [natDigits, natDigitsAux, h10]
  · have hdiv : n / 10 < n := Nat.div_lt_self (by omega) (by omega)
    show natDigitsAux (n + 1) n = _
    rw [show natDigitsAux (n + 1) n =
          (if n < 10 then [digitChar n]
           else natDigitsAux n (n / 10) ++ [digitChar (n % 10)]) from rfl]
    rw [if_neg h10, if_neg h10,
      natDigitsAux_fuel (n / 10) n (n / 10 + 1) (by omega) (by omega)]
    rfl

theorem natDigits_ne_nil (n : Nat) : natDigits n ≠ [] := by
  rw [natDigits_unfold n]
  split <;> simp

theorem digitChar_inj10 : ∀ d, d < 10 → ∀ e, e < 10 →
    digitChar d = digitChar e → d = e := by decide

theorem digitChar_lt10 : ∀ d, d < 10 → ∀ e, e < 10 → d < e →
    digitChar d < digitChar e := by decide

theorem digitChar_ne_slash : ∀ d, d < 10 → digitChar d ≠ '/' := by decide

theorem digitChar_ne_dot : ∀ d, d < 10 → digitChar d ≠ '.' := by decide

/-- Every character of a rendered natural number is a decimal digit
character. -/
theorem mem_natDigits : ∀ n : Nat, ∀ c ∈ natDigits n, ∃ k, k < 10 ∧ c = digitChar k := by
  intro n
  induction n using Nat.strong_induction_on with
  | _ n ih =>
    intro c hc
    rw [natDigits_unfold n] at hc
    by_cases h10 : n < 10
    · rw [if_pos h10] at hc
      simp only [List.mem_singleton] at hc
      exact ⟨n, h10, hc⟩
    · rw [if_neg h10] at hc
      rcases List.mem_append.mp hc with h | h
      · exact ih (n / 10) (Nat.div_lt_self (by omega) (by omega)) c h
      · simp only [List.mem_singleton] at h
        exact ⟨n % 10, Nat.mod_lt _ (by omega), h⟩

theorem append_singleton_inj {α : Type} {a b : List α} {x y : α}
    (h : a ++ [x] = b ++ [y]) : a = b ∧ x = y := by
  have h2 := congrArg List.reverse h
  simp only [List.reverse_append, List.reverse_singleton, List.singleton_append] at h2
  obtain ⟨h3, h4⟩ := List.cons.inj h2
  exact ⟨List.reverse_inj.mp h4, h3⟩

/-- Decimal rendering of naturals is injective. -/
theorem natDigits_inj : ∀ n m : Nat, natDigits n = natDigits m → n = m := by
  intro n
  induction n using Nat.strong_induction_on with
  | _ n ih =>
    intro m h
    rw [natDigits_unfold n, natDigits_unfold m] at h
    by_cases hn : n < 10 <;> by_cases hm : m < 10
    · rw [if_pos hn, if_pos hm] at h
      exact digitChar_inj10 n hn m hm (List.singleton_inj.mp h)
    · rw [if_pos hn, if_neg hm] at h
      have hlen := congrArg List.length h
      simp only [List.length_singleton, List.length_append] at hlen
      have := natDigits_ne_nil (m / 10)
      cases hnil : natDigits (m / 10) with
      | nil => exact absurd hnil this
      | cons c cs => rw [hnil] at hlen; simp at hlen
    · rw [if_neg hn, if_pos hm] at h
      have hlen := congrArg List.length h
      simp only [List.length_singleton, List.length_append] at hlen
      have := natDigits_ne_nil (n / 10)
      cases hnil : natDigits (n / 10) with
      | nil => exact absurd hnil this
      | cons c cs => rw [hnil] at hlen; simp at hlen
    · rw [if_neg hn, if_neg hm] at h
      obtain ⟨h1, h2⟩ := append_singleton_inj h
      have hq : n / 10 = m / 10 :=
        ih (n / 10) (Nat.div_lt_self (by omega) (by omega)) (m / 10) h1
      have hr : n % 10 = m % 10 :=
        digitChar_inj10 _ (Nat.mod_lt _ (by omega)) _ (Nat.mod_lt _ (by omega)) h2
      omega

/-- The leading digit of a nonzero natural number is not `'0'`. -/
theorem natDigits_head_ne_zero : ∀ n : Nat, n ≠ 0 → ∀ l, natDigits n ≠ '0' :: l := by
  intro n
  induction n using Nat.strong_induction_on with
  | _ n ih =>
    intro hn l h
    rw [natDigits_unfold n] at h
    by_cases h10 : n < 10
    · rw [if_pos h10] at h
      have : digitChar n = '0' := (List.cons.inj h).1
      have : n = 0 := digitChar_inj10 n h10 0 (by omega) (by simpa using this)
      exact hn this
    · rw [if_neg h10] at h
      cases hnil : natDigits (n / 10) with
      | nil => exact natDigits_ne_nil _ hnil
      | cons c cs =>
        rw [hnil] at h
        simp only [List.cons_append, List.cons.injEq] at h
        exact ih (n / 10) (Nat.div_lt_self (by omega) (by omega)) (by omega)
          cs (by rw [h.1] at hnil; exact hnil)

theorem natDigits_lt_ten (n : Nat) (h : n < 10) : natDigits n = [digitChar n] := by
  rw [natDigits_unfold n, if_pos h]

theorem two_le_natDigits_length (n : Nat) (h : 10 ≤ n) :
    2 ≤ (natDigits n).length := by
  rw [natDigits_unfold n, if_neg (by omega)]
  cases hnil : natDigits (n / 10) with
  | nil => exact absurd hnil (natDigits_ne_nil _)
  | cons c cs => simp

/-- The characters of the zero-padded rank index. -/
theorem pad2_data (n : Nat) :
    (pad2 n).data = if n < 10 then ['0', digitChar n] else natDigits n := by
  by_cases h10 : n < 10
  · rw [if_pos h10]
    rw [pad2, if_pos (by rw [natDigits_lt_ten n h10]; simp)]
    rw [natDigits_lt_ten n h10]
    rfl
  · rw [if_neg h10]
    rw [pad2, if_neg (by have := two_le_natDigits_length n (by omega); omega)]
    rfl

/-- Below 100 the padded rank index is exactly the two digit characters. -/
theorem pad2_data_lt100 (n : Nat) (h : n < 100) :
    (pad2 n).data = [digitChar (n / 10), digitChar (n % 10)] := by
  rw [pad2_data]
  by_cases h10 : n < 10
  · rw [if_pos h10]
    have h1 : n / 10 = 0 := Nat.div_eq_of_lt h10
    have h2 : n % 10 = n := Nat.mod_eq_of_lt h10
    rw [h1, h2]
    rfl
  · rw [if_neg h10, natDigits_unfold n, if_neg h10,
      natDigits_lt_ten (n / 10) (by omega)]
    rfl

theorem mem_pad2 (n : Nat) : ∀ c ∈ (pad2 n).data, ∃ k, k < 10 ∧ c = digitChar k := by
  intro c hc
  rw [pad2_data] at hc
  by_cases h10 : n < 10
  · rw [if_pos h10] at hc
    simp only [List.mem_cons, List.not_mem_nil, or_false] at hc
    rcases hc with h | h
    · exact ⟨0, by omega, by rw [h]; decide⟩
    · exact ⟨n, h10, h⟩
  · rw [if_neg h10] at hc
    exact mem_natDigits n c hc

theorem pad2_data_inj : ∀ n m : Nat, (pad2 n).data = (pad2 m).data → n = m := by
  have key : ∀ n m : Nat, n < 10 → ¬m < 10 → (pad2 n).data ≠ (pad2 m).data := by
    intro n m hn hm h
    rw [pad2_data, if_pos hn, pad2_data, if_neg hm] at h
    exact natDigits_head_ne_zero m (by omega) [digitChar n] h.symm
  intro n m h
  by_cases hn : n < 10 <;> by_cases hm : m < 10
  · rw [pad2_data, if_pos hn, pad2_data, if_pos hm] at h
    simp only [List.cons.injEq, and_true] at h
    exact digitChar_inj10 n hn m hm h.2
  · exact absurd h (key n m hn hm)
  · exact absurd h.symm (key m n hm hn)
  · rw [pad2_data, if_neg hn, pad2_data, if_neg hm] at h
    exact natDigits_inj n m h

/-- Splitting a character list at its last occurrence of a separator is
unambiguous. -/
theorem splitLastSep {sep : Char} :
    ∀ a a' b b' : List Char, sep ∉ b → sep ∉ b' →
      a ++ sep :: b = a' ++ sep :: b' → a = a' ∧ b = b' := by
  intro a
  induction a with
  | nil =>
    intro a' b b' hb hb' h
    cases a' with
    | nil =>
      simp only [List.nil_append] at h
      exact ⟨rfl, (List.cons.inj h).2⟩
    | cons x xs =>
      simp only [List.nil_append, List.cons_append, List.cons.injEq] at h
      exact absurd (h.2 ▸ List.mem_append_right xs (List.mem_cons_self sep b'))
        hb
  | cons x xs ih =>
    intro a' b b' hb hb' h
    cases a' with
    | nil =>
      simp only [List.nil_append, List.cons_append, List.cons.injEq] at h
      exact absurd (h.2.symm ▸ List.mem_append_right xs (List.mem_cons_self sep b))
        hb'
    | cons y ys =>
      simp only [List.cons_append, List.cons.injEq] at h
      obtain ⟨rfl, h2⟩ := h
      obtain ⟨h3, h4⟩ := ih ys b b' hb hb' h2
      exact ⟨by rw [h3], h4⟩

theorem stringDataAppend (s t : String) : (s ++ t).data = s.data ++ t.data := by
  cases s
  cases t
  rfl

/-- The flat character list of a fragment path, grouped at its last two
separators. -/
theorem fragPath_data (dir pn : String) (tp : Nat) (st : String) (dp : Nat) :
    (fragPath dir pn tp st dp).data =
      ((dir.data ++ '/' :: pn.data) ++ '/' :: natDigits tp) ++
        '/' :: (st.data ++ '.' :: (pad2 dp).data) := by
  simp only [fragPath, stringDataAppend, natStr, List.append_assoc]
  rfl

theorem moment_no_sep {st : String} (h : st ∈ momentNames) :
    '/' ∉ st.data ∧ '.' ∉ st.data := by
  fin_cases h <;> exact ⟨by decide, by decide⟩

theorem pad2_no_slash (n : Nat) : '/' ∉ (pad2 n).data := by
  intro hc
  obtain ⟨k, hk, he⟩ := mem_pad2 n _ hc
  exact digitChar_ne_slash k hk he.symm

theorem pad2_no_dot (n : Nat) : '.' ∉ (pad2 n).data := by
  intro hc
  obtain ⟨k, hk, he⟩ := mem_pad2 n _ hc
  exact digitChar_ne_dot k hk he.symm

theorem natDigits_no_slash (n : Nat) : '/' ∉ natDigits n := by
  intro hc
  obtain ⟨k, hk, he⟩ := mem_natDigits n _ hc
  exact digitChar_ne_slash k hk he.symm

/-- The tail `state_name ++ "." ++ pad2 dp` of a fragment path contains
no path separator. -/
theorem fragTail_no_slash {st : String} (hst : st ∈ momentNames) (dp : Nat) :
    '/' ∉ st.data ++ '.' :: (pad2 dp).data := by
  intro hm
  rcases List.mem_append.mp hm with hm | hm
  · exact (moment_no_sep hst).1 hm
  · rcases List.mem_cons.mp hm with hm | hm
    · exact absurd hm (by decide)
    · exact pad2_no_slash dp hm

/-- A fragment path determines the parameter name, the TP index, the
moment name and the DP index: paths written for different coordinates
are different strings. -/
theorem fragPath_inj {dir pn pn' st st' : String} {tp tp' dp dp' : Nat}
    (hst : st ∈ momentNames) (hst' : st' ∈ momentNames)
    (h : fragPath dir pn tp st dp = fragPath dir pn' tp' st' dp') :
    pn = pn' ∧ tp = tp' ∧ st = st' ∧ dp = dp' := by
  have hd := congrArg String.data h
  rw [fragPath_data, fragPath_data] at hd
  obtain ⟨h1, h2⟩ := splitLastSep _ _ _ _ (fragTail_no_slash hst dp)
    (fragTail_no_slash hst' dp') hd
  obtain ⟨h3, h4⟩ := splitLastSep _ _ _ _ (pad2_no_dot dp) (pad2_no_dot dp') h2
  obtain ⟨h5, h6⟩ := splitLastSep _ _ _ _ (natDigits_no_slash tp)
    (natDigits_no_slash tp') h1
  have hpn : pn = pn' := by
    have := List.append_cancel_left h5
    exact String.ext (List.cons.inj this).2
  exact ⟨hpn, natDigits_inj tp tp' h6, String.ext h3, pad2_data_inj dp dp' h4⟩

/-- Prepending a common prefix preserves lexicographic order of
character lists. -/
theorem listLt_append_left (p : List Char) {a b : List Char} (h : a < b) :
    p ++ a < p ++ b := by
  induction p with
  | nil => exact h
  | cons c cs ih => exact List.Lex.cons ih

/-- Below 100, the zero-padded decimal rank indices compare
lexicographically exactly as the ranks compare numerically. -/
theorem pad2_lt_of_lt {d e : Nat} (hd : d < e) (he : e < 100) :
    (pad2 d).data < (pad2 e).data := by
  rw [pad2_data_lt100 d (by omega), pad2_data_lt100 e he]
  by_cases hq : d / 10 < e / 10
  · exact List.Lex.rel (digitChar_lt10 _ (by omega) _ (by omega) hq)
  · have hq2 : d / 10 = e / 10 := by omega
    have hr : d % 10 < e % 10 := by omega
    rw [hq2]
    exact List.Lex.cons (List.Lex.rel (digitChar_lt10 _ (by omega) _ (by omega) hr))

theorem fragPath_lt_of_pad2_lt (dir pn st : String) (tp : Nat) {d e : Nat}
    (h : (pad2 d).data < (pad2 e).data) :
    fragPath dir pn tp st d < fragPath dir pn tp st e := by
  rw [String.lt_iff_toList_lt]
  show (fragPath dir pn tp st d).data < (fragPath dir pn tp st e).data
  rw [fragPath_data, fragPath_data]
  have ha : ∀ X : List Char,
      ((dir.data ++ '/' :: pn.data) ++ '/' :: natDigits tp) ++
          '/' :: (st.data ++ '.' :: X) =
        (((dir.data ++ '/' :: pn.data) ++ '/' :: natDigits tp) ++
          ('/' :: st.data ++ ['.'])) ++ X := by
    intro X
    simp [List.append_assoc]
  rw [ha, ha]
  exact listLt_append_left _ h

/-- C4 (amended: DP ranks below 100).  For DP ranks `d < e < 100`, the
fragment filename `m.<dp:02d>` produced by `dump_param_fragment` for `d`
is lexicographically smaller than the one for `e`, and likewise the full
fragment paths, so loading `tmp/name/tp/m.*` in sorted (lexicographic)
order recovers ascending DP order before concatenation whenever the DP
degree is at most 100.  (For ranks `≥ 100` the 2-digit zero padding no
longer sorts correctly; see the counterexample.) -/
theorem frag_filename_dp_order (dir pn st : String) (tp : Nat) (d e : Nat)
    (hd : d < e) (he : e < 100) :
    (st ++ "." ++ pad2 d) < (st ++ "." ++ pad2 e) ∧
      fragPath dir pn tp st d < fragPath dir pn tp st e := by
  have hcore := pad2_lt_of_lt hd he
  refine ⟨?_, fragPath_lt_of_pad2_lt dir pn st tp hcore⟩
  rw [String.lt_iff_toList_lt]
  show (st ++ "." ++ pad2 d).data < (st ++ "." ++ pad2 e).data
  rw [stringDataAppend, stringDataAppend, stringDataAppend, stringDataAppend]
  have ha : ∀ X : List Char,
      st.data ++ (".").data ++ X = (st.data ++ (".").data) ++ X := by
    intro X
    simp [List.append_assoc]
  rw [List.append_assoc, List.append_assoc, ← List.append_assoc st.data,
    ← List.append_assoc st.data]
  exact listLt_append_left _ hcore

/-- Witness for C4's amended theorem at concrete ranks 0 < 1. -/
theorem frag_filename_dp_order_witness :
    ((0 : Nat) < 1 ∧ (1 : Nat) < 100) ∧
      (("fp32" ++ "." ++ pad2 0) < ("fp32" ++ "." ++ pad2 1) ∧
        fragPath "tmp" "w" 0 "fp32" 0 < fragPath "tmp" "w" 0 "fp32" 1) :=
  ⟨⟨by decide, by decide⟩,
    frag_filename_dp_order "tmp" "w" "fp32" 0 0 1 (by decide) (by decide)⟩

/-- Counterexample to C4 as stated: for DP ranks 99 < 100 the 2-digit
zero-padded filenames compare the wrong way around, so sorted
(lexicographic) order does not recover ascending DP order once a DP
degree exceeds 100. -/
theorem frag_filename_dp_order_counterexample :
    (99 : Nat) < 100 ∧
      ¬ (("fp32" ++ "." ++ pad2 99) < ("fp32" ++ "." ++ pad2 100)) ∧
      ("fp32" ++ "." ++ pad2 100) < ("fp32" ++ "." ++ pad2 99) := by
  refine ⟨by decide, ?_, ?_⟩ <;>
    · rw [String.lt_iff_toList_lt]
      decide

/-- Characterization of the writes of one extraction work item: exactly
the per-moment dumps of the non-skipped slice-mapping entries. -/
theorem mem_extract_iff {dir : String} {prp : List Pattern}
    {groups : List GroupState} {pp tp dp : Nat} {w : String × Tensor} :
    w ∈ extract_zero_shards dir prp groups pp tp dp ↔
      ∃ g ∈ groups, ∃ entry ∈ g.slice_mapping,
        ¬(0 < pp ∧ matchesAny prp entry.1 = true) ∧
        ∃ st ∈ flatState g,
          w = dump_param_fragment dir tp dp st.1 st.2 entry.1
                entry.2.start entry.2.numel := by
  simp only [extract_zero_shards, List.mem_flatMap, extractGroupWrites]
  constructor
  · rintro ⟨g, hg, entry, he, hw⟩
    rw [extractEntryWrites] at hw
    split at hw
    · cases hw
    · rename_i hcond
      simp only [List.mem_map] at hw
      obtain ⟨st, hst, rfl⟩ := hw
      refine ⟨g, hg, entry, he, ?_, st, hst, rfl⟩
      rintro ⟨hpp, hm⟩
      simp [hpp, hm] at hcond
  · rintro ⟨g, hg, entry, he, hskip, st, hst, rfl⟩
    refine ⟨g, hg, entry, he, ?_⟩
    rw [extractEntryWrites]
    have hcond : (decide (pp > 0) && matchesAny prp entry.1) = false := by
      cases hm : matchesAny prp entry.1
      · simp
      · have : ¬ pp > 0 := fun hpp => hskip ⟨hpp, hm⟩
        simp [this]
    rw [if_neg (by simp [hcond])]
    exact List.mem_map.mpr ⟨st, hst, rfl⟩

theorem flatState_fst {g : GroupState} {st : String × Tensor}
    (h : st ∈ flatState g) : st.1 ∈ momentNames := by
  simp only [flatState, List.mem_cons, List.not_mem_nil, or_false] at h
  rcases h with rfl | rfl | rfl <;> simp [momentNames]

/-- C5 (amended: work items that differ in `tp` or `dp`).  Two
extraction work items whose `tp` or `dp` coordinates differ write
disjoint sets of fragment file paths, whatever their rank states are:
the path embeds `tp` and `dp` and determines them uniquely.  (Work items
differing only in `pp` can collide, because the path does not embed
`pp`; see the counterexample.) -/
theorem extract_paths_disjoint (dir : String) (prp : List Pattern)
    (g1 g2 : List GroupState) (pp1 tp1 dp1 pp2 tp2 dp2 : Nat)
    (hne : tp1 ≠ tp2 ∨ dp1 ≠ dp2) :
    ∀ w1 ∈ extract_zero_shards dir prp g1 pp1 tp1 dp1,
      ∀ w2 ∈ extract_zero_shards dir prp g2 pp2 tp2 dp2, w1.1 ≠ w2.1 := by
  intro w1 h1 w2 h2 heq
  obtain ⟨ga, hga, ea, hea, hskipa, sta, hsta, rfl⟩ := mem_extract_iff.mp h1
  obtain ⟨gb, hgb, eb, heb, hskipb, stb, hstb, rfl⟩ := mem_extract_iff.mp h2
  have hinj := fragPath_inj (flatState_fst hsta) (flatState_fst hstb) heq
  rcases hne with h | h
  · exact h hinj.2.1
  · exact h hinj.2.2.2

/-- Witness for C5's amended theorem: two concrete work items differing
in `tp` have disjoint write path sets. -/
theorem extract_paths_disjoint_witness :
    ((0 : Nat) ≠ 1 ∨ (0 : Nat) ≠ 0) ∧
      (∀ w1 ∈ extract_zero_shards "tmp" []
          [⟨⟨[1], [5]⟩, ⟨[1], [6]⟩, ⟨[1], [7]⟩, [("w", ⟨0, 1⟩)]⟩] 0 0 0,
        ∀ w2 ∈ extract_zero_shards "tmp" []
          [⟨⟨[1], [5]⟩, ⟨[1], [6]⟩, ⟨[1], [7]⟩, [("w", ⟨0, 1⟩)]⟩] 0 1 0,
          w1.1 ≠ w2.1) :=
  ⟨Or.inl (by decide),
    extract_paths_disjoint "tmp" [] _ _ 0 0 0 0 1 0 (Or.inl (by decide))⟩

/-- Counterexample to C5 as stated: the two distinct work items
`(pp, tp, dp) = (0, 0, 0)` and `(1, 0, 0)` of a checkpoint whose both
stages map the (non-pipeline-replicated) parameter `"w"` write the very
same fragment path `tmp/w/0/exp_avg.00`: the fragment path does not
embed `pp`. -/
theorem extract_paths_overlap_across_pp :
    ((0, 0, 0) : Nat × Nat × Nat) ≠ (1, 0, 0) ∧
      ("tmp/w/0/exp_avg.00" ∈ (extract_zero_shards "tmp" []
          [⟨⟨[1], [5]⟩, ⟨[1], [6]⟩, ⟨[1], [7]⟩, [("w", ⟨0, 1⟩)]⟩] 0 0 0).map
            Prod.fst ∧
        "tmp/w/0/exp_avg.00" ∈ (extract_zero_shards "tmp" []
          [⟨⟨[1], [5]⟩, ⟨[1], [6]⟩, ⟨[1], [7]⟩, [("w", ⟨0, 1⟩)]⟩] 1 0 0).map
            Prod.fst) := by
  refine ⟨by decide, by decide, by decide⟩

/-- How many entries of a group's slice mapping carry a given parameter
name. -/
def nameCountGroup (name : String) (g : GroupState) : Nat :=
  (g.slice_mapping.filter fun e => e.1 = name).length

/-- How many slice-mapping entries across all groups carry a given
parameter name. -/
def nameCount (name : String) (groups : List GroupState) : Nat :=
  (groups.map (nameCountGroup name)).sum

theorem filterFlatMap {α β : Type} (l : List α) (f : α → List β) (p : β → Bool) :
    (l.flatMap f).filter p = l.flatMap fun a => (f a).filter p := by
  induction l with
  | nil => rfl
  | cons x xs ih => simp [List.flatMap_cons, List.filter_append, ih]

theorem flatMap_nil_of {α β : Type} {l : List α} {f : α → List β}
    (h : ∀ a ∈ l, f a = []) : l.flatMap f = [] := by
  induction l with
  | nil => rfl
  | cons x xs ih =>
    simp [List.flatMap_cons, h x (List.mem_cons_self x xs),
      ih fun a ha => h a (List.mem_cons_of_mem x ha)]

theorem fragPath_moment_ne {dir name : String} {tp dp : Nat} {m m' : String}
    (hm : m ∈ momentNames) (hm' : m' ∈ momentNames) (h : m ≠ m') :
    fragPath dir name tp m dp ≠ fragPath dir name tp m' dp :=
  fun he => h (fragPath_inj hm hm' he).2.2.1

/-- An entry for a different parameter name contributes no write at a
given name's fragment path. -/
theorem entryWrites_filter_ne {dir name : String} {prp : List Pattern}
    {pp tp dp : Nat} {g : GroupState} {entry : String × FragmentMapping}
    {m : String} (hm : m ∈ momentNames) (hne : entry.1 ≠ name) :
    (extractEntryWrites dir prp pp tp dp g entry).filter
      (fun w => w.1 = fragPath dir name tp m dp) = [] := by
  rw [List.filter_eq_nil_iff]
  intro w hw hp
  rw [extractEntryWrites] at hw
  split at hw
  · cases hw
  · obtain ⟨st, hst, rfl⟩ := List.mem_map.mp hw
    have hpath : fragPath dir entry.1 tp st.1 dp = fragPath dir name tp m dp :=
      of_decide_eq_true hp
    exact hne (fragPath_inj (flatState_fst hst) hm hpath).1

theorem nameCountGroup_zero {name : String} {g' : GroupState}
    (h : nameCountGroup name g' = 0) : ∀ e ∈ g'.slice_mapping, e.1 ≠ name := by
  intro e he heq
  rw [nameCountGroup, List.length_eq_zero] at h
  have : e ∈ g'.slice_mapping.filter fun x => x.1 = name :=
    List.mem_filter.mpr ⟨he, by simp [heq]⟩
  rw [h] at this
  cases this

/-- A whole group none of whose entries carry the name contributes no
write at the name's fragment path. -/
theorem groupWrites_filter_of_ne {dir name : String} {prp : List Pattern}
    {pp tp dp : Nat} {g' : GroupState} {m : String} (hm : m ∈ momentNames)
    (hne : ∀ e ∈ g'.slice_mapping, e.1 ≠ name) :
    (extractGroupWrites dir prp pp tp dp g').filter
      (fun w => w.1 = fragPath dir name tp m dp) = [] := by
  rw [extractGroupWrites, filterFlatMap]
  exact flatMap_nil_of fun e he => entryWrites_filter_ne hm (hne e he)

/-- A non-skipped entry contributes exactly the one write at its
fragment path for a given moment. -/
theorem entryWrites_filter_eq {dir : String} {prp : List Pattern}
    {pp tp dp : Nat} {g : GroupState} {name : String} {fm : FragmentMapping}
    {m : String} {t : Tensor} (hmt : (m, t) ∈ flatState g)
    (hskip : ¬(0 < pp ∧ matchesAny prp name = true)) :
    (extractEntryWrites dir prp pp tp dp g (name, fm)).filter
      (fun w => w.1 = fragPath dir name tp m dp) =
      [(fragPath dir name tp m dp, t.narrow0 fm.start fm.numel)] := by
  have hcond : (decide (pp > 0) && matchesAny prp name) = false := by
    cases hmatch : matchesAny prp name
    · simp
    · have : ¬ pp > 0 := fun hpp => hskip ⟨hpp, hmatch⟩
      simp [this]
  rw [extractEntryWrites]
  rw [if_neg (by simp [hcond])]
  have hmem : m ∈ momentNames := flatState_fst hmt
  simp only [flatState, List.mem_cons, List.not_mem_nil, or_false,
    Prod.mk.injEq] at hmt
  rcases hmt with ⟨rfl, rfl⟩ | ⟨rfl, rfl⟩ | ⟨rfl, rfl⟩ <;>
    simp only [flatState, List.map_cons, List.map_nil, dump_param_fragment]
  · have h1 : fragPath dir name tp "exp_avg_sq" dp ≠ fragPath dir name tp "exp_avg" dp :=
      fragPath_moment_ne (by simp [momentNames]) (by simp [momentNames]) (by decide)
    have h2 : fragPath dir name tp "fp32" dp ≠ fragPath dir name tp "exp_avg" dp :=
      fragPath_moment_ne (by simp [momentNames]) (by simp [momentNames]) (by decide)
    simp [List.filter_cons, h1, h2]
  · have h1 : fragPath dir name tp "exp_avg" dp ≠ fragPath dir name tp "exp_avg_sq" dp :=
      fragPath_moment_ne (by simp [momentNames]) (by simp [momentNames]) (by decide)
    have h2 : fragPath dir name tp "fp32" dp ≠ fragPath dir name tp "exp_avg_sq" dp :=
      fragPath_moment_ne (by simp [momentNames]) (by simp [momentNames]) (by decide)
    simp [List.filter_cons, h1, h2]
  · have h1 : fragPath dir name tp "exp_avg" dp ≠ fragPath dir name tp "fp32" dp :=
      fragPath_moment_ne (by simp [momentNames]) (by simp [momentNames]) (by decide)
    have h2 : fragPath dir name tp "exp_avg_sq" dp ≠ fragPath dir name tp "fp32" dp :=
      fragPath_moment_ne (by simp [momentNames]) (by simp [momentNames]) (by decide)
    simp [List.filter_cons, h1, h2]

theorem nameCount_zero {name : String} : ∀ {l : List GroupState},
    nameCount name l = 0 → ∀ g' ∈ l, nameCountGroup name g' = 0 := by
  intro l
  induction l with
  | nil => intro _ g' hg'; cases hg'
  | cons x xs ih =>
    intro h g' hg'
    rw [nameCount, List.map_cons, List.sum_cons] at h
    rcases List.mem_cons.mp hg' with rfl | hg'
    · omega
    · exact ih (by rw [nameCount]; omega) g' hg'

theorem filter_len_zero_ne {name : String} {l : List (String × FragmentMapping)}
    (h : (l.filter fun e => e.1 = name).length = 0) : ∀ e ∈ l, e.1 ≠ name := by
  intro e he heq
  rw [List.length_eq_zero] at h
  have : e ∈ l.filter fun e => e.1 = name :=
    List.mem_filter.mpr ⟨he, by simp [heq]⟩
  rw [h] at this
  cases this

/-- C1.  For a work item `(pp, tp, dp)` and a slice-mapping entry
`(name, fm)` of a group `g` — with `name` carried by exactly one entry
across the groups, as a parameter belongs to one group — the extractor
behaves as specified: if `pp > 0` and `name` matches some
`pipeline_replicated` pattern, no fragment file is written for that
name; otherwise, for each moment `(m, t)` of the group's flat state
(`m ∈ {exp_avg, exp_avg_sq, fp32}`), exactly one file at path
`dir/name/tp/m.<dp:02d>` is written, whose content is the contiguous
1-D slice `t[fm.start : fm.start + fm.numel]` of that group's flat
tensor for `m`. -/
theorem extract_zero_shards_fragment_spec
    (dir : String) (prp : List Pattern) (groups : List GroupState)
    (pp tp dp : Nat) (g : GroupState) (name : String) (fm : FragmentMapping)
    (hg : g ∈ groups) (hn : (name, fm) ∈ g.slice_mapping)
    (huniq : nameCount name groups = 1) :
    ((0 < pp ∧ matchesAny prp name = true) →
      ∀ m ∈ momentNames, ∀ c : Tensor,
        (fragPath dir name tp m dp, c) ∉
          extract_zero_shards dir prp groups pp tp dp) ∧
    (¬(0 < pp ∧ matchesAny prp name = true) →
      ∀ mt ∈ flatState g,
        (extract_zero_shards dir prp groups pp tp dp).filter
          (fun w => w.1 = fragPath dir name tp mt.1 dp) =
          [(fragPath dir name tp mt.1 dp,
            mt.2.narrow0 fm.start fm.numel)]) := by
  constructor
  · rintro ⟨hpp, hmatch⟩ m hm c hmem
    obtain ⟨g', hg', e, he, hskip, st, hst, heq⟩ := mem_extract_iff.mp hmem
    have hpath : fragPath dir e.1 tp st.1 dp = fragPath dir name tp m dp := by
      have := congrArg Prod.fst heq
      simpa [dump_param_fragment] using this.symm
    have hname : e.1 = name := (fragPath_inj (flatState_fst hst) hm hpath).1
    exact hskip ⟨hpp, by rw [hname]; exact hmatch⟩
  · intro hskip mt hmt
    obtain ⟨l1, l2, rfl⟩ := List.append_of_mem hg
    obtain ⟨m1, m2, hmap⟩ := List.append_of_mem hn
    have hm : mt.1 ∈ momentNames := flatState_fst hmt
    have hfilter_g : g.slice_mapping.filter (fun e => e.1 = name) =
        (m1.filter fun e => e.1 = name) ++
          (name, fm) :: (m2.filter fun e => e.1 = name) := by
      rw [hmap]
      simp [List.filter_append, List.filter_cons]
    have hcg : nameCountGroup name g =
        (m1.filter fun e => e.1 = name).length +
          (m2.filter fun e => e.1 = name).length + 1 := by
      rw [nameCountGroup, hfilter_g]
      simp only [List.length_append, List.length_cons]
      omega
    have hsum : nameCount name (l1 ++ g :: l2) =
        nameCount name l1 + (nameCountGroup name g + nameCount name l2) := by
      simp [nameCount, List.map_append, List.sum_append, List.map_cons,
        List.sum_cons]
    rw [hsum, hcg] at huniq
    have hm1 : (m1.filter fun e => e.1 = name).length = 0 := by omega
    have hm2 : (m2.filter fun e => e.1 = name).length = 0 := by omega
    have hl1 : nameCount name l1 = 0 := by omega
    have hl2 : nameCount name l2 = 0 := by omega
    rw [extract_zero_shards, filterFlatMap, List.flatMap_append,
      List.flatMap_cons]
    rw [flatMap_nil_of fun g' hg' =>
      groupWrites_filter_of_ne hm (nameCountGroup_zero (nameCount_zero hl1 g' hg'))]
    rw [flatMap_nil_of fun g' hg' =>
      groupWrites_filter_of_ne hm (nameCountGroup_zero (nameCount_zero hl2 g' hg'))]
    rw [extractGroupWrites, filterFlatMap, hmap, List.flatMap_append,
      List.flatMap_cons]
    rw [flatMap_nil_of fun e he =>
      entryWrites_filter_ne hm (filter_len_zero_ne hm1 e he)]
    rw [flatMap_nil_of fun e he =>
      entryWrites_filter_ne hm (filter_len_zero_ne hm2 e he)]
    rw [entryWrites_filter_eq hmt hskip]
    simp

/-- Witness for C1 at a concrete one-group checkpoint state. -/
theorem extract_zero_shards_fragment_spec_witness :
    ((⟨⟨[2], [10, 20]⟩, ⟨[2], [30, 40]⟩, ⟨[2], [50, 60]⟩,
        [("w", ⟨1, 1⟩)]⟩ : GroupState) ∈
      [(⟨⟨[2], [10, 20]⟩, ⟨[2], [30, 40]⟩, ⟨[2], [50, 60]⟩,
        [("w", ⟨1, 1⟩)]⟩ : GroupState)] ∧
     (("w", (⟨1, 1⟩ : FragmentMapping)) ∈
      (⟨⟨[2], [10, 20]⟩, ⟨[2], [30, 40]⟩, ⟨[2], [50, 60]⟩,
        [("w", ⟨1, 1⟩)]⟩ : GroupState).slice_mapping) ∧
     nameCount "w" [⟨⟨[2], [10, 20]⟩, ⟨[2], [30, 40]⟩, ⟨[2], [50, 60]⟩,
        [("w", ⟨1, 1⟩)]⟩] = 1) ∧
    (((0 < 0 ∧ matchesAny [] "w" = true) →
      ∀ m ∈ momentNames, ∀ c : Tensor,
        (fragPath "tmp" "w" 0 m 0, c) ∉
          extract_zero_shards "tmp" []
            [⟨⟨[2], [10, 20]⟩, ⟨[2], [30, 40]⟩, ⟨[2], [50, 60]⟩,
              [("w", ⟨1, 1⟩)]⟩] 0 0 0) ∧
    (¬(0 < 0 ∧ matchesAny [] "w" = true) →
      ∀ mt ∈ flatState (⟨⟨[2], [10, 20]⟩, ⟨[2], [30, 40]⟩, ⟨[2], [50, 60]⟩,
              [("w", ⟨1, 1⟩)]⟩ : GroupState),
        (extract_zero_shards "tmp" []
            [⟨⟨[2], [10, 20]⟩, ⟨[2], [30, 40]⟩, ⟨[2], [50, 60]⟩,
              [("w", ⟨1, 1⟩)]⟩] 0 0 0).filter
          (fun w => w.1 = fragPath "tmp" "w" 0 mt.1 0) =
          [(fragPath "tmp" "w" 0 mt.1 0,
            mt.2.narrow0 1 1)])) :=
  ⟨⟨by decide, by decide, by decide⟩,
    extract_zero_shards_fragment_spec "tmp" [] _ 0 0 0 _ "w" ⟨1, 1⟩
      (by decide) (by decide) (by decide)⟩

theorem zipWith_add_getD : ∀ (a b : List ℚ) (i : Nat), i < a.length → i < b.length →
    (List.zipWith (· + ·) a b).getD i 0 = a.getD i 0 + b.getD i 0 := by
  intro a
  induction a with
  | nil => intro b i h; simp at h
  | cons x xs ih =>
    intro b i h1 h2
    cases b with
    | nil => simp at h2
    | cons y ys =>
      cases i with
      | zero => simp
      | succ n =>
        simp only [List.zipWith_cons_cons, List.getD_cons_succ]
        exact ih ys n (by simpa using h1) (by simpa using h2)

theorem map_div_getD (l : List ℚ) (q : ℚ) (i : Nat) (hi : i < l.length) :
    (l.map fun x => x / q).getD i 0 = l.getD i 0 / q := by
  rw [List.getD_eq_getElem?_getD, List.getD_eq_getElem?_getD,
    List.getElem?_map, List.getElem?_eq_getElem hi]
  rfl

/-- Pointwise description of the Python `sum` over equally shaped
tensors. -/
theorem pySum_spec {sh : List Nat} {L : Nat} :
    ∀ (rest : List Tensor) (s : Tensor), s.shape = sh → s.data.length = L →
      (∀ t ∈ rest, t.shape = sh ∧ t.data.length = L) →
      ∃ tot, pySum s rest = some tot ∧ tot.shape = sh ∧ tot.data.length = L ∧
        ∀ i, i < L → tot.data.getD i 0 =
          s.data.getD i 0 + ((rest.map fun t => t.data.getD i 0).sum) := by
  intro rest
  induction rest with
  | nil =>
    intro s h1 h2 _
    exact ⟨s, rfl, h1, h2, by simp⟩
  | cons t ts ih =>
    intro s h1 h2 hall
    have ht := hall t (List.mem_cons_self t ts)
    have hadd : tensorAdd s t =
        some ⟨s.shape, List.zipWith (· + ·) s.data t.data⟩ := by
      rw [tensorAdd, if_pos (by rw [h1, ht.1])]
    have hlen : (List.zipWith (· + ·) s.data t.data).length = L := by
      rw [List.length_zipWith, h2, ht.2]
      omega
    obtain ⟨tot, htot, hsh, hlen2, hpt⟩ :=
      ih ⟨s.shape, List.zipWith (· + ·) s.data t.data⟩ h1 hlen
        (fun u hu => hall u (List.mem_cons_of_mem t hu))
    refine ⟨tot, ?_, hsh, hlen2, ?_⟩
    · rw [pySum, List.foldlM_cons, hadd]
      exact htot
    · intro i hi
      rw [hpt i hi]
      show List.getD (List.zipWith (· + ·) s.data t.data) i 0 + _ = _
      rw [zipWith_add_getD s.data t.data i (by omega) (by omega)]
      simp only [List.map_cons, List.sum_cons]
      ring

/-- C2.  Cross-TP combination is decided by first-match classification
in the fixed priority order `tp_replicated`, `average`, concatenation:
a `tp_replicated`-matching name yields slice 0 with no `cat_dim`
recorded (whatever other pattern lists it matches); an
`average`-matching (and not `tp_replicated`) name yields the
element-wise mean of the TP slices with no `cat_dim` recorded; any
other name yields the concatenation along `cat_dim`, where `cat_dim`
is 1 iff the name matches a `row_parallel` pattern and 0 otherwise, and
`cat_dim` is recorded only in this third case. -/
theorem merge_tp_classification (info : UniversalCheckpointInfo) (name : String)
    (s : Tensor) (rest : List Tensor) :
    (matchesAny info.tp_replicated_parameter_patterns name = true →
      ∀ p cd, mergeCombineSlices info name (s :: rest) = .ok (p, cd) →
        p = s ∧ cd = none) ∧
    (matchesAny info.tp_replicated_parameter_patterns name = false →
      matchesAny info.parameter_to_average_patterns name = true →
      (∀ t ∈ s :: rest, t.shape = s.shape ∧ t.data.length = s.data.length) →
      ∃ p, mergeCombineSlices info name (s :: rest) = .ok (p, none) ∧
        p.shape = s.shape ∧
        ∀ i, i < s.data.length → p.data.getD i 0 =
          (((s :: rest).map fun t => t.data.getD i 0).sum) /
            (((s :: rest).length : ℚ))) ∧
    (matchesAny info.tp_replicated_parameter_patterns name = false →
      matchesAny info.parameter_to_average_patterns name = false →
      ∀ c, torchCat
          (if matchesAny info.parameter_with_row_parallelism_patterns name
            then 1 else 0) (s :: rest) = some c →
        mergeCombineSlices info name (s :: rest) =
          .ok (c, some
            (if matchesAny info.parameter_with_row_parallelism_patterns name
              then 1 else 0))) := by
  refine ⟨?_, ?_, ?_⟩
  · intro hrep p cd h
    rw [mergeCombineSlices, if_pos hrep] at h
    split at h
    · split at h
      · obtain ⟨h1, h2⟩ := Prod.mk.inj (Except.ok.inj h)
        exact ⟨h1.symm, h2.symm⟩
      · cases h
    · obtain ⟨h1, h2⟩ := Prod.mk.inj (Except.ok.inj h)
      exact ⟨h1.symm, h2.symm⟩
  · intro hrep havg hsh
    obtain ⟨tot, htot, hshape, hlen, hpt⟩ :=
      pySum_spec rest s rfl rfl fun t ht => hsh t (List.mem_cons_of_mem s ht)
    refine ⟨tensorDivNat tot (s :: rest).length, ?_, hshape, ?_⟩
    · rw [mergeCombineSlices, if_neg (by simp [hrep]), if_pos havg, htot]
    · intro i hi
      show (tot.data.map fun x => x / (((s :: rest).length : ℚ))).getD i 0 = _
      rw [map_div_getD tot.data _ i (by omega), hpt i hi]
      simp only [List.map_cons, List.sum_cons]
  · intro hrep havg c hc
    rw [mergeCombineSlices, if_neg (by simp [hrep]), if_neg (by simp [havg])]
    simp only [hc]

/-- Witness for C2 at concrete patterns and slices, exercising all three
classification branches. -/
theorem merge_tp_classification_witness :
    (matchesAny [fun n => n == "r"] "r" = true ∧
      ((⟨[1], [2]⟩ : Tensor) = ⟨[1], [2]⟩ ∧ (none : Option Nat) = none)) ∧
    (matchesAny [fun n => n == "r"] "a" = false ∧
      matchesAny [fun n => n == "a"] "a" = true ∧
      (∃ p, mergeCombineSlices ⟨[], [fun n => n == "r"], [fun n => n == "a"],
            [fun n => n == "row"], [], 0⟩ "a"
            [⟨[1], [2]⟩, ⟨[1], [4]⟩] = .ok (p, none) ∧
        p.shape = (⟨[1], [2]⟩ : Tensor).shape ∧
        ∀ i, i < (⟨[1], [2]⟩ : Tensor).data.length → p.data.getD i 0 =
          ((([⟨[1], [2]⟩, ⟨[1], [4]⟩] : List Tensor).map
            fun t => t.data.getD i 0).sum) /
            ((([⟨[1], [2]⟩, ⟨[1], [4]⟩] : List Tensor).length : ℚ)))) ∧
    (matchesAny [fun n => n == "r"] "x" = false ∧
      matchesAny [fun n => n == "a"] "x" = false ∧
      mergeCombineSlices ⟨[], [fun n => n == "r"], [fun n => n == "a"],
          [fun n => n == "row"], [], 0⟩ "x" [⟨[1], [2]⟩, ⟨[1], [4]⟩] =
        .ok (⟨[2], [2, 4]⟩,
          some (if matchesAny [fun n => n == "row"] "x" then 1 else 0))) := by
  refine ⟨⟨by decide, ?_⟩, ⟨by decide, by decide, ?_⟩,
    ⟨by decide, by decide, ?_⟩⟩
  · exact (merge_tp_classification ⟨[], [fun n => n == "r"],
      [fun n => n == "a"], [fun n => n == "row"], [], 0⟩ "r"
      ⟨[1], [2]⟩ [⟨[1], [2]⟩]).1 (by decide) ⟨[1], [2]⟩ none rfl
  · exact (merge_tp_classification ⟨[], [fun n => n == "r"],
      [fun n => n == "a"], [fun n => n == "row"], [], 0⟩ "a"
      ⟨[1], [2]⟩ [⟨[1], [4]⟩]).2.1 (by decide) (by decide) (by decide)
  · exact (merge_tp_classification ⟨[], [fun n => n == "r"],
      [fun n => n == "a"], [fun n => n == "row"], [], 0⟩ "x"
      ⟨[1], [2]⟩ [⟨[1], [4]⟩]).2.2 (by decide) (by decide) ⟨[2], [2, 4]⟩ rfl

/-- In the `tp_replicated` branch, Step B returns slice 0 when the
slices all equal slice 0, and the replication violation otherwise. -/
theorem combine_replicated (info : UniversalCheckpointInfo) (name : String)
    (s : Tensor) (rest : List Tensor)
    (hrep : matchesAny info.tp_replicated_parameter_patterns name = true) :
    ((rest.all fun other => s = other) = true →
      mergeCombineSlices info name (s :: rest) = .ok (s, none)) ∧
    ((rest.all fun other => s = other) = false →
      mergeCombineSlices info name (s :: rest) = .error .replicationViolation) := by
  constructor
  · intro hall
    rw [mergeCombineSlices, if_pos hrep]
    split <;> simp [hall]
  · intro hall
    rw [mergeCombineSlices, if_pos hrep]
    split
    · simp [hall]
    · rename_i hlen
      cases rest with
      | nil => simp at hall
      | cons a l => simp at hlen

theorem merge_state_of_combine {info : UniversalCheckpointInfo} {name : String}
    {slices : List Tensor} {pr : Tensor × Option Nat}
    (h : mergeCombineSlices info name slices = .ok pr) :
    merge_tp_slices_state info name slices =
      (if matchesAny info.vocabulary_parameter_patterns name then
        match _get_vocab_divisibility_padding_tensor
            info.original_vocab_size pr.1 with
        | some v => .ok ⟨pr.1, pr.2, some v⟩
        | none => .error .indexError
      else .ok ⟨pr.1, pr.2, none⟩) := by
  rw [merge_tp_slices_state, h]
  rfl

theorem merge_state_of_combine_error {info : UniversalCheckpointInfo}
    {name : String} {slices : List Tensor} {e : MergeError}
    (h : mergeCombineSlices info name slices = .error e) :
    merge_tp_slices_state info name slices = .error e := by
  rw [merge_tp_slices_state, h]
  rfl

/-- C3.  For a `tp_replicated`-classified parameter with more than one
TP slice, the merge task fails with `ReplicationViolation` iff some TP
slice is not bitwise-equal to slice 0; on success the merged tensor is
slice 0; with a single slice (TP = 1) Step B passes the slice through
unconditionally, performing no equality check. -/
theorem tp_replicated_assert_spec (info : UniversalCheckpointInfo)
    (name : String) (s : Tensor) (rest : List Tensor)
    (hrep : matchesAny info.tp_replicated_parameter_patterns name = true) :
    (1 < (s :: rest).length →
      (merge_tp_slices_state info name (s :: rest) =
          .error .replicationViolation ↔
        ∃ t ∈ s :: rest, t ≠ s)) ∧
    (∀ r, merge_tp_slices_state info name (s :: rest) = .ok r →
      r.param = s) ∧
    (rest = [] → mergeCombineSlices info name (s :: rest) = .ok (s, none)) := by
  have hcr := combine_replicated info name s rest hrep
  refine ⟨?_, ?_, ?_⟩
  · intro _
    cases hall : rest.all fun other => s = other
    · rw [merge_state_of_combine_error (hcr.2 hall)]
      constructor
      · intro _
        have hnall : ¬ ∀ x ∈ rest, s = x := by
          intro hx
          have htrue : (rest.all fun other => decide (s = other)) = true :=
            List.all_eq_true.mpr fun x hxm => decide_eq_true (hx x hxm)
          rw [htrue] at hall
          cases hall
        push_neg at hnall
        obtain ⟨x, hx, hxs⟩ := hnall
        exact ⟨x, List.mem_cons_of_mem s hx, fun he => hxs he.symm⟩
      · intro _
        rfl
    · have hok := hcr.1 hall
      rw [merge_state_of_combine hok]
      constructor
      · intro h
        split at h
        · split at h
          · cases h
          · cases h
        · cases h
      · rintro ⟨t, ht, hne⟩
        rcases List.mem_cons.mp ht with rfl | ht
        · exact absurd rfl hne
        · have := List.all_eq_true.mp hall t ht
          exact absurd (of_decide_eq_true this).symm hne
  · intro r h
    cases hall : rest.all fun other => s = other
    · rw [merge_state_of_combine_error (hcr.2 hall)] at h
      cases h
    · rw [merge_state_of_combine (hcr.1 hall)] at h
      split at h
      · split at h
        · obtain he := Except.ok.inj h
          rw [← he]
        · cases h
      · obtain he := Except.ok.inj h
        rw [← he]
  · intro h
    subst h
    exact hcr.1 rfl

/-- Witness for C3 at two unequal concrete slices. -/
theorem tp_replicated_assert_spec_witness :
    (matchesAny [fun n => n == "r"] "r" = true ∧
      1 < ([⟨[1], [2]⟩, ⟨[1], [3]⟩] : List Tensor).length) ∧
    (merge_tp_slices_state ⟨[], [fun n => n == "r"], [], [], [], 0⟩ "r"
        [⟨[1], [2]⟩, ⟨[1], [3]⟩] = .error .replicationViolation ↔
      ∃ t ∈ ([⟨[1], [2]⟩, ⟨[1], [3]⟩] : List Tensor), t ≠ ⟨[1], [2]⟩) :=
  ⟨⟨by decide, by decide⟩,
    (tp_replicated_assert_spec ⟨[], [fun n => n == "r"], [], [], [], 0⟩ "r"
      ⟨[1], [2]⟩ [⟨[1], [3]⟩] (by decide)).1 (by decide)⟩

/-- Behaviour of `_get_vocab_divisibility_padding_tensor` by shape of
the merged tensor. -/
theorem get_vocab_spec (orig : Nat) (t : Tensor) :
    (∀ d0 rest, t.shape = d0 :: rest → orig < d0 →
      _get_vocab_divisibility_padding_tensor orig t = tensorLastIndex0 t) ∧
    (∀ d0 d1 rest, t.shape = d0 :: d1 :: rest → ¬ orig < d0 →
      _get_vocab_divisibility_padding_tensor orig t = some (zerosT d1)) ∧
    (∀ n, t.shape = [n] → n ≤ orig →
      _get_vocab_divisibility_padding_tensor orig t = none) ∧
    (∀ d0 d1 rest, t.shape = d0 :: d1 :: rest →
      (_get_vocab_divisibility_padding_tensor orig t).isSome = true) := by
  obtain ⟨sh, da⟩ := t
  refine ⟨?_, ?_, ?_, ?_⟩
  · rintro d0 rest hsh hlt
    simp only at hsh
    subst hsh
    simp only [_get_vocab_divisibility_padding_tensor]
    rw [if_pos hlt]
  · rintro d0 d1 rest hsh hge
    simp only at hsh
    subst hsh
    simp only [_get_vocab_divisibility_padding_tensor]
    rw [if_neg hge]
  · rintro n hsh hle
    simp only at hsh
    subst hsh
    simp only [_get_vocab_divisibility_padding_tensor]
    rw [if_neg (by omega)]
  · rintro d0 d1 rest hsh
    simp only at hsh
    subst hsh
    simp only [_get_vocab_divisibility_padding_tensor]
    by_cases hlt : d0 > orig
    · rw [if_pos hlt]
      rw [tensorLastIndex0]
      simp only
      rw [if_neg (by omega)]
      rfl
    · rw [if_neg hlt]
      rfl

/-- C6.  For a vocabulary-matching parameter, a successful merge records
a `vocab_divisibility_padding_tensor` equal to the last row of the
merged tensor when its first dimension exceeds `original_vocab_size`,
and otherwise a zero tensor of length equal to the second dimension;
the merged `param` tensor itself is exactly the Step-B output,
unmodified. -/
theorem vocab_padding_record_spec (info : UniversalCheckpointInfo)
    (name : String) (slices : List Tensor) (r : MergeResult)
    (hvoc : matchesAny info.vocabulary_parameter_patterns name = true)
    (hok : merge_tp_slices_state info name slices = .ok r) :
    mergeCombineSlices info name slices = .ok (r.param, r.cat_dim) ∧
    (∀ d0 rest, r.param.shape = d0 :: rest →
      info.original_vocab_size < d0 →
      r.vocab_divisibility_padding_tensor = tensorLastIndex0 r.param) ∧
    (∀ d0 d1 rest, r.param.shape = d0 :: d1 :: rest →
      ¬ info.original_vocab_size < d0 →
      r.vocab_divisibility_padding_tensor = some (zerosT d1)) := by
  cases hcomb : mergeCombineSlices info name slices with
  | error e =>
    rw [merge_state_of_combine_error hcomb] at hok
    cases hok
  | ok pr =>
    rw [merge_state_of_combine hcomb, if_pos hvoc] at hok
    cases hv : _get_vocab_divisibility_padding_tensor
        info.original_vocab_size pr.1 with
    | none =>
      rw [hv] at hok
      cases hok
    | some v =>
      rw [hv] at hok
      obtain he := Except.ok.inj hok
      subst he
      refine ⟨rfl, ?_, ?_⟩
      · intro d0 rest hsh hlt
        show some v = _
        rw [← hv, (get_vocab_spec info.original_vocab_size pr.1).1 d0 rest hsh hlt]
      · intro d0 d1 rest hsh hge
        show some v = _
        rw [← hv,
          (get_vocab_spec info.original_vocab_size pr.1).2.1 d0 d1 rest hsh hge]

/-- Witness for C6 on a concrete vocabulary parameter with padding. -/
theorem vocab_padding_record_spec_witness :
    (matchesAny [fun n => n == "v"] "v" = true ∧
      merge_tp_slices_state ⟨[], [], [], [], [fun n => n == "v"], 2⟩ "v"
        [⟨[3, 1], [1, 2, 3]⟩] =
        .ok ⟨⟨[3, 1], [1, 2, 3]⟩, some 0, some ⟨[1], [3]⟩⟩) ∧
    (mergeCombineSlices ⟨[], [], [], [], [fun n => n == "v"], 2⟩ "v"
        [⟨[3, 1], [1, 2, 3]⟩] = .ok (⟨[3, 1], [1, 2, 3]⟩, some 0) ∧
      (∀ d0 rest, ([3, 1] : List Nat) = d0 :: rest → 2 < d0 →
        (some (⟨[1], [3]⟩ : Tensor) : Option Tensor) =
          tensorLastIndex0 ⟨[3, 1], [1, 2, 3]⟩) ∧
      (∀ d0 d1 rest, ([3, 1] : List Nat) = d0 :: d1 :: rest → ¬ 2 < d0 →
        (some (⟨[1], [3]⟩ : Tensor) : Option Tensor) = some (zerosT d1))) :=
  ⟨⟨by decide, by rfl⟩,
    vocab_padding_record_spec ⟨[], [], [], [], [fun n => n == "v"], 2⟩ "v"
      [⟨[3, 1], [1, 2, 3]⟩] ⟨⟨[3, 1], [1, 2, 3]⟩, some 0, some ⟨[1], [3]⟩⟩
      (by decide) (by rfl)⟩

/-- C10.  Computing the vocabulary padding tensor needs a second
dimension whenever the first dimension does not exceed
`original_vocab_size`: a vocabulary-classified parameter whose merged
tensor is 1-D with length at most `original_vocab_size` makes the merge
task fail (with the index error), while for any at-least-2-D tensor the
computation always succeeds, so under the precondition that every
vocabulary parameter is 2-D the failure is unreachable. -/
theorem vocab_padding_dim_safety (info : UniversalCheckpointInfo)
    (name : String) (slices : List Tensor)
    (hvoc : matchesAny info.vocabulary_parameter_patterns name = true) :
    (∀ p cd n, mergeCombineSlices info name slices = .ok (p, cd) →
      p.shape = [n] → n ≤ info.original_vocab_size →
      merge_tp_slices_state info name slices = .error .indexError) ∧
    (∀ t : Tensor, ∀ d0 d1 rest, t.shape = d0 :: d1 :: rest →
      (_get_vocab_divisibility_padding_tensor
        info.original_vocab_size t).isSome = true) := by
  constructor
  · intro p cd n hcomb hsh hle
    rw [merge_state_of_combine hcomb, if_pos hvoc]
    rw [(get_vocab_spec info.original_vocab_size p).2.2.1 n hsh hle]
  · intro t d0 d1 rest hsh
    exact (get_vocab_spec info.original_vocab_size t).2.2.2 d0 d1 rest hsh

/-- Witness for C10 at a concrete 1-D short vocabulary tensor and a
concrete 2-D tensor. -/
theorem vocab_padding_dim_safety_witness :
    (matchesAny [fun n => n == "v"] "v" = true ∧
      mergeCombineSlices ⟨[], [], [], [], [fun n => n == "v"], 5⟩ "v"
        [⟨[3], [1, 2, 3]⟩] = .ok (⟨[3], [1, 2, 3]⟩, some 0) ∧
      (⟨[3], [1, 2, 3]⟩ : Tensor).shape = [3] ∧ (3 : Nat) ≤ 5) ∧
    merge_tp_slices_state ⟨[], [], [], [], [fun n => n == "v"], 5⟩ "v"
        [⟨[3], [1, 2, 3]⟩] = .error .indexError ∧
    (_get_vocab_divisibility_padding_tensor 5
      ⟨[2, 2], [1, 2, 3, 4]⟩).isSome = true :=
  ⟨⟨by decide, by rfl, by rfl, by decide⟩,
    (vocab_padding_dim_safety ⟨[], [], [], [], [fun n => n == "v"], 5⟩ "v"
      [⟨[3], [1, 2, 3]⟩] (by decide)).1 ⟨[3], [1, 2, 3]⟩ (some 0) 3
      (by rfl) rfl (by decide),
    (vocab_padding_dim_safety ⟨[], [], [], [], [fun n => n == "v"], 5⟩ "v"
      [⟨[3], [1, 2, 3]⟩] (by decide)).2 ⟨[2, 2], [1, 2, 3, 4]⟩ 2 2 [] rfl⟩

theorem lookup_filter_not_in {α : Type} (l : List (String × α)) (k : String)
    (hk : k ∈ sharded_states) :
    (save_optimizer_state_output l).lookup k = none := by
  induction l with
  | nil => rfl
  | cons kv tl ih =>
    obtain ⟨a, b⟩ := kv
    rw [save_optimizer_state_output, List.filter_cons]
    rw [save_optimizer_state_output] at ih
    split
    · rename_i hp
      have ha : a ∉ sharded_states := by
        simp only [Bool.not_eq_true'] at hp
        intro hmem
        have h2 : sharded_states.contains a = true :=
          List.elem_eq_true_of_mem hmem
        exact Bool.false_ne_true (hp ▸ h2)
      have hne : (k == a) = false :=
        beq_eq_false_iff_ne.mpr fun he => ha (he ▸ hk)
      rw [List.lookup_cons, hne]
      exact ih
    · exact ih

theorem lookup_filter_preserved {α : Type} (l : List (String × α)) (k : String)
    (hk : k ∉ sharded_states) :
    (save_optimizer_state_output l).lookup k = l.lookup k := by
  induction l with
  | nil => rfl
  | cons kv tl ih =>
    obtain ⟨a, b⟩ := kv
    rw [save_optimizer_state_output, List.filter_cons]
    rw [save_optimizer_state_output] at ih
    split
    · rw [List.lookup_cons, List.lookup_cons]
      cases hbe : k == a
      · exact ih
      · rfl
    · rename_i hp
      have ha : a ∈ sharded_states := by
        simp only [Bool.not_eq_true', Bool.not_eq_false] at hp
        exact List.mem_of_elem_eq_true hp
      have hne : (k == a) = false :=
        beq_eq_false_iff_ne.mpr fun he => hk (he ▸ ha)
      rw [List.lookup_cons, hne]
      exact ih

/-- C7.  The record written to `out/zero/optimizer_state.pt` is the
`(0,0,0)` optimizer state dict with exactly the three sharded keys
(`base_optimizer_state`, `param_slice_mappings`,
`single_partition_of_fp32_groups`) removed: those keys look up to
nothing in the output, every other key keeps its value, and the output
entries are exactly the input entries whose key is not sharded. -/
theorem save_optimizer_state_keys_spec {α : Type}
    (optim_sd : List (String × α)) (k : String) :
    (k ∈ sharded_states →
      (save_optimizer_state_output optim_sd).lookup k = none) ∧
    (k ∉ sharded_states →
      (save_optimizer_state_output optim_sd).lookup k = optim_sd.lookup k) ∧
    (∀ kv, kv ∈ save_optimizer_state_output optim_sd ↔
      kv ∈ optim_sd ∧ kv.1 ∉ sharded_states) := by
  refine ⟨fun hk => lookup_filter_not_in optim_sd k hk,
    fun hk => lookup_filter_preserved optim_sd k hk, fun kv => ?_⟩
  rw [save_optimizer_state_output, List.mem_filter]
  constructor
  · rintro ⟨h1, h2⟩
    refine ⟨h1, fun hmem => ?_⟩
    simp only [Bool.not_eq_true'] at h2
    exact Bool.false_ne_true (h2 ▸ List.elem_eq_true_of_mem hmem)
  · rintro ⟨h1, h2⟩
    refine ⟨h1, ?_⟩
    simp only [Bool.not_eq_true']
    cases hc : sharded_states.contains kv.1
    · rfl
    · exact absurd (List.mem_of_elem_eq_true hc) h2

/-- Witness for C7 on a concrete two-key optimizer state dict. -/
theorem save_optimizer_state_keys_spec_witness :
    ("base_optimizer_state" ∈ sharded_states ∧ "lr" ∉ sharded_states) ∧
    (save_optimizer_state_output
        [("lr", (1 : Nat)), ("base_optimizer_state", 2)]).lookup
      "base_optimizer_state" = none ∧
    (save_optimizer_state_output
        [("lr", (1 : Nat)), ("base_optimizer_state", 2)]).lookup "lr" =
      ([("lr", (1 : Nat)), ("base_optimizer_state", 2)]).lookup "lr" :=
  ⟨⟨by decide, by decide⟩,
    (save_optimizer_state_keys_spec [("lr", 1), ("base_optimizer_state", 2)]
      "base_optimizer_state").1 (by decide),
    (save_optimizer_state_keys_spec [("lr", 1), ("base_optimizer_state", 2)]
      "lr").2.1 (by decide)⟩

/-- The run trace of `main`, computed: the phases in order, ending with
the `latest_universal` write. -/
theorem mainRun_eq (args : Args) (extractPaths mergePaths mpFiles : List String)
    (rmtreeFails : Bool) :
    mainRun args extractPaths mergePaths mpFiles rmtreeFails = .ok
      ((extractPaths.map Event.writeFragment ++
        mergePaths.map Event.writeParam ++
        [Event.writeOptimizerState (osPathJoin
          (osPathJoin args.output_folder "zero") "optimizer_state.pt")] ++
        (if args.keep_temp_folder then []
          else [Event.removeTree (osPathJoin args.output_folder "tmp")]) ++
        mpFiles.map fun f => Event.copyFile f args.output_folder) ++
        [Event.writeText
          (osPathJoin (osDirname args.output_folder) "latest_universal")
          (osBasename args.output_folder)]) := by
  cases hk : args.keep_temp_folder
  · simp [mainRun, hk, shutilRmtree]
  · simp [mainRun, hk, shutilRmtree]
    rfl

/-- C8.  On every (successful) run the trace ends with exactly the
`latest_universal` write, whose content is the basename of the output
folder; no earlier event writes that pointer, and every
merged-parameter write, the optimizer-state write and every `mp*` copy
occur strictly before it. -/
theorem latest_universal_last_write_spec (args : Args)
    (extractPaths mergePaths mpFiles : List String) (rmtreeFails : Bool)
    (tr : List Event)
    (h : mainRun args extractPaths mergePaths mpFiles rmtreeFails = .ok tr) :
    tr.getLast? = some (.writeText
        (osPathJoin (osDirname args.output_folder) "latest_universal")
        (osBasename args.output_folder)) ∧
    (∀ e ∈ tr.dropLast, e.isLatestWrite = false) ∧
    (∀ p ∈ mergePaths, Event.writeParam p ∈ tr.dropLast) ∧
    Event.writeOptimizerState (osPathJoin (osPathJoin args.output_folder "zero")
      "optimizer_state.pt") ∈ tr.dropLast ∧
    (∀ f ∈ mpFiles, Event.copyFile f args.output_folder ∈ tr.dropLast) := by
  rw [mainRun_eq] at h
  obtain rfl := (Except.ok.inj h).symm
  rw [List.getLast?_concat, List.dropLast_concat]
  refine ⟨rfl, ?_, ?_, ?_, ?_⟩
  · intro e he
    simp only [List.mem_append] at he
    rcases he with (((h1 | h2) | h3) | h4) | h5
    · obtain ⟨p, _, rfl⟩ := List.mem_map.mp h1
      rfl
    · obtain ⟨p, _, rfl⟩ := List.mem_map.mp h2
      rfl
    · rw [List.mem_singleton] at h3
      rw [h3]
      rfl
    · split at h4
      · cases h4
      · rw [List.mem_singleton] at h4
        rw [h4]
        rfl
    · obtain ⟨p, _, rfl⟩ := List.mem_map.mp h5
      rfl
  · intro p hp
    simp only [List.mem_append]
    exact Or.inl (Or.inl (Or.inl (Or.inr (List.mem_map.mpr ⟨p, hp, rfl⟩))))
  · simp only [List.mem_append]
    exact Or.inl (Or.inl (Or.inr (List.mem_singleton.mpr rfl)))
  · intro f hf
    simp only [List.mem_append]
    exact Or.inr (List.mem_map.mpr ⟨f, hf, rfl⟩)

/-- Witness for C8 on a concrete run. -/
theorem latest_universal_last_write_spec_witness :
    (mainRun ⟨"in", "out/step1", false⟩ [] ["p"] ["m"] false = .ok
        [.writeParam "p",
         .writeOptimizerState "out/step1/zero/optimizer_state.pt",
         .removeTree "out/step1/tmp",
         .copyFile "m" "out/step1",
         .writeText "out/latest_universal" "step1"]) ∧
    (([.writeParam "p",
       .writeOptimizerState "out/step1/zero/optimizer_state.pt",
       .removeTree "out/step1/tmp",
       .copyFile "m" "out/step1",
       .writeText "out/latest_universal" "step1"] : List Event).getLast? =
        some (.writeText "out/latest_universal" "step1") ∧
      (∀ e ∈ ([.writeParam "p",
         .writeOptimizerState "out/step1/zero/optimizer_state.pt",
         .removeTree "out/step1/tmp",
         .copyFile "m" "out/step1"] : List Event), e.isLatestWrite = false) ∧
      (∀ p ∈ ["p"], Event.writeParam p ∈ ([.writeParam "p",
         .writeOptimizerState "out/step1/zero/optimizer_state.pt",
         .removeTree "out/step1/tmp",
         .copyFile "m" "out/step1"] : List Event)) ∧
      Event.writeOptimizerState "out/step1/zero/optimizer_state.pt" ∈
        ([.writeParam "p",
          .writeOptimizerState "out/step1/zero/optimizer_state.pt",
          .removeTree "out/step1/tmp",
          .copyFile "m" "out/step1"] : List Event) ∧
      (∀ f ∈ ["m"], Event.copyFile f "out/step1" ∈ ([.writeParam "p",
         .writeOptimizerState "out/step1/zero/optimizer_state.pt",
         .removeTree "out/step1/tmp",
         .copyFile "m" "out/step1"] : List Event))) :=
  ⟨by rfl,
    latest_universal_last_write_spec ⟨"in", "out/step1", false⟩ [] ["p"] ["m"]
      false _ (by rfl)⟩

/-- C9.  With `keep_temp_folder` unset, a file-system failure while
removing `tmp/` is silently swallowed (`shutil.rmtree` is called with
`ignore_errors=True`): the run result is identical to the no-failure
run, the removal of `tmp/` is still merely attempted, and the run still
performs every `mp*` copy and finishes by writing `latest_universal`. -/
theorem rmtree_failure_ignored_spec (args : Args)
    (extractPaths mergePaths mpFiles : List String)
    (hk : args.keep_temp_folder = false) :
    ∀ rmtreeFails : Bool,
      mainRun args extractPaths mergePaths mpFiles rmtreeFails =
        mainRun args extractPaths mergePaths mpFiles false ∧
      ∃ tr, mainRun args extractPaths mergePaths mpFiles rmtreeFails = .ok tr ∧
        Event.removeTree (osPathJoin args.output_folder "tmp") ∈ tr ∧
        (∀ f ∈ mpFiles, Event.copyFile f args.output_folder ∈ tr) ∧
        tr.getLast? = some (.writeText
          (osPathJoin (osDirname args.output_folder) "latest_universal")
          (osBasename args.output_folder)) := by
  intro b
  refine ⟨by rw [mainRun_eq, mainRun_eq], ?_⟩
  refine ⟨_, mainRun_eq args extractPaths mergePaths mpFiles b, ?_, ?_, ?_⟩
  · simp only [List.mem_append, hk, if_false]
    exact Or.inl (Or.inl (Or.inr (List.mem_singleton.mpr rfl)))
  · intro f hf
    simp only [List.mem_append]
    exact Or.inl (Or.inr (List.mem_map.mpr ⟨f, hf, rfl⟩))
  · rw [List.getLast?_concat]

/-- Witness for C9 on a concrete run with the removal failing. -/
theorem rmtree_failure_ignored_spec_witness :
    ((⟨"in", "out/step1", false⟩ : Args).keep_temp_folder = false) ∧
    (mainRun ⟨"in", "out/step1", false⟩ [] [] ["m"] true =
      mainRun ⟨"in", "out/step1", false⟩ [] [] ["m"] false ∧
    ∃ tr, mainRun ⟨"in", "out/step1", false⟩ [] [] ["m"] true = .ok tr ∧
      Event.removeTree (osPathJoin "out/step1" "tmp") ∈ tr ∧
      (∀ f ∈ ["m"], Event.copyFile f "out/step1" ∈ tr) ∧
      tr.getLast? = some (.writeText
        (osPathJoin (osDirname "out/step1") "latest_universal")
        (osBasename "out/step1"))) :=
  ⟨by rfl,
    rmtree_failure_ignored_spec ⟨"in", "out/step1", false⟩ [] [] ["m"]
      (by rfl) true⟩
